import Mathlib

/-!
Shallow embedding of `src/src/timer/interval.rs` (the `Interval` stream of the
`romio` timer) together with the narrow collaborator interface it consumes
(`Delay`, `clock`).  Instants and durations are modelled as natural numbers of
nanoseconds.  A Rust `Instant` is representable only up to a platform bound;
we model that bound as an explicit parameter `instantMax`, and the unchecked
`Instant + Duration` addition as `instAdd`, which returns `none` exactly when
the sum would overflow the representable range (a Rust panic).  Functions that
can panic return `Option`, with `none` standing for the panic.
-/

namespace Romio

/-- A point in time, in nanoseconds. -/
abbrev Instant := Nat

/-- A span of time, in nanoseconds.  The Rust guard `duration > Duration::new(0, 0)`
becomes `0 < duration`. -/
abbrev Duration := Nat

/-- The opaque error produced by the timer driver (external collaborator);
only its identity matters to the code under study. -/
abbrev Error := Nat

/-- Rust `Instant + Duration`: defined only while the sum stays inside the
representable range `[0, instantMax]`; `none` models the overflow panic. -/
def instAdd (instantMax : Nat) (i : Instant) (d : Duration) : Option Instant :=
  if i + d ≤ instantMax then some (i + d) else none

/-- Rust `Poll<α>`: either a finished value or a suspension. -/
inductive Poll (α : Type) where
  | ready (value : α)
  | pending
deriving DecidableEq, Repr

/-- Modelled from the spec: the single-shot `Delay` collaborator (not under
`src/`).  Its observable state is the deadline it is currently armed for
(spec §6: `deadline() -> Instant`). -/
structure Delay where
  deadline : Instant
deriving DecidableEq, Repr

/-- Modelled from the spec: `new(deadline) -> Delay`, "construct armed for a
point in time" (spec §6). -/
def Delay.new (t : Instant) : Delay := ⟨t⟩

/-- Modelled from the spec: `reset(new_deadline)`, "re-arms the same delay
instance for a new point in time" (spec §6). -/
def Delay.reset (_d : Delay) (newDeadline : Instant) : Delay := ⟨newDeadline⟩

/-- Modelled from the spec: `poll(waker) -> Poll<Result<(), Error>>`,
"single-shot resolution; suspends until the deadline passes or the driver
fails" (spec §6).  `wallNow` is the monotonic wall-clock time at which the
poll happens and `driverError` records a failed driver, which reports its
error instead of resolving. -/
def Delay.poll (wallNow : Instant) (driverError : Option Error) (d : Delay) :
    Poll (Except Error Unit) :=
  match driverError with
  | some e => Poll.ready (Except.error e)
  | none => if d.deadline ≤ wallNow then Poll.ready (Except.ok ()) else Poll.pending

/-- The `Interval` stream: an owned `Delay` plus the fixed period
(`src/src/timer/interval.rs`, lines 13–19; the field is named `duration`
in the source). -/
structure Interval where
  delay : Delay
  duration : Duration
deriving DecidableEq, Repr

/-- `Interval::new_with_delay` (interval.rs lines 50–55): builds the record
from an existing delay and a duration.  The body performs no check on
`duration`, so the function is total and `none` is never returned; the
`Option` codomain is kept so that "panics" is expressible about it. -/
def Interval.new_with_delay (delay : Delay) (duration : Duration) : Option Interval :=
  some { delay := delay, duration := duration }

/-- `Interval::new` (interval.rs lines 32–36): asserts `duration` non-zero
(panic — `none` — otherwise), then delegates to `new_with_delay` with a
fresh delay armed for `t`. -/
def Interval.new (t : Instant) (duration : Duration) : Option Interval :=
  if 0 < duration then Interval.new_with_delay (Delay.new t) duration else none

/-- `Interval::new_interval` (interval.rs lines 46–48):
`Interval::new(clock::now() + duration, duration)`.  The external clock's
current time is passed in as `now`; the `+` is the unchecked instant
addition. -/
def Interval.new_interval (instantMax : Nat) (now : Instant) (duration : Duration) :
    Option Interval :=
  match instAdd instantMax now duration with
  | none => none
  | some t => Interval.new t duration

/-- `<Interval as Stream>::poll_next` (interval.rs lines 65–79).  The outcome
of polling the owned delay is `delayPoll` (the collaborator decides it); the
function returns the produced `Poll<Option<Result<Instant, Error>>>` together
with the state after the call, or `none` when the unchecked addition
`now + self.duration` (line 74) panics.
  * `ready!` (line 67) propagates `Pending` untouched;
  * `?` (line 67) turns a delay error `e` into `Ready(Some(Err(e)))` with no
    further state change;
  * on success the armed deadline is read (line 70), the delay is reset to
    `deadline + duration` (lines 74–75) and the deadline is yielded
    (line 78). -/
def Interval.poll_next (instantMax : Nat) (iv : Interval)
    (delayPoll : Poll (Except Error Unit)) :
    Option (Poll (Option (Except Error Instant)) × Interval) :=
  match delayPoll with
  | Poll.pending => some (Poll.pending, iv)
  | Poll.ready (Except.error e) => some (Poll.ready (some (Except.error e)), iv)
  | Poll.ready (Except.ok _) =>
      let now := iv.delay.deadline
      match instAdd instantMax now iv.duration with
      | none => none
      | some next =>
          some (Poll.ready (some (Except.ok now)),
                { iv with delay := iv.delay.reset next })

/-- `poll_next` as driven by the modelled collaborator: the delay is polled at
wall-clock time `wallNow` with driver state `driverError`, and the result is
fed to the code's `poll_next`. -/
def Interval.poll_next_at (instantMax : Nat) (wallNow : Instant)
    (driverError : Option Error) (iv : Interval) :
    Option (Poll (Option (Except Error Instant)) × Interval) :=
  iv.poll_next instantMax (Delay.poll wallNow driverError iv.delay)

/-- Runs one `poll_next` per wall-clock time in `ws` (the times at which the
consumer polls, driver healthy) and collects the yielded instants; `none` if
any poll suspends, errors or panics. -/
def Interval.run (instantMax : Nat) : Interval → List Instant → Option (List Instant)
  | _, [] => some []
  | iv, wallNow :: ws =>
      match Interval.poll_next_at instantMax wallNow none iv with
      | some (Poll.ready (some (Except.ok t)), iv') =>
          (Interval.run instantMax iv' ws).map (fun ts => t :: ts)
      | _ => none

/-- The spec's words for `new_from_now` (spec §4.1), stated as its own
definition for comparison with the source's `new_interval`: "equivalent to
`new(now() + period, period)` using the external clock collaborator's
current-time query". -/
def specNewFromNow (instantMax : Nat) (now : Instant) (period : Duration) :
    Option Interval :=
  (instAdd instantMax now period).bind fun t => Interval.new t period

/-- C3: `Interval::new(at, duration)` panics exactly when `duration` is zero,
and for every strictly positive `duration` it returns the interval whose delay
is freshly armed for `at` and whose stored period is `duration`, with no other
effect. -/
theorem new_panics_iff_zero_duration (t : Instant) (duration : Duration) :
    (Interval.new t duration = none ↔ duration = 0) ∧
    (0 < duration → Interval.new t duration = some ⟨Delay.new t, duration⟩) := by
  unfold Interval.new Interval.new_with_delay
  by_cases h : 0 < duration
  · rw [if_pos h]
    refine ⟨⟨fun hn => absurd hn (by simp),
            fun hz => absurd (hz ▸ h) (Nat.lt_irrefl 0)⟩, fun _ => rfl⟩
  · rw [if_neg h]
    exact ⟨⟨fun _ => Nat.eq_zero_of_not_pos h, fun hz => rfl⟩, fun hp => absurd hp h⟩

/-- Instance of `new_panics_iff_zero_duration` at concrete inputs. -/
theorem new_panics_iff_zero_duration_witness :
    Interval.new 3 0 = none ∧ Interval.new 3 5 = some ⟨⟨3⟩, 5⟩ :=
  ⟨(new_panics_iff_zero_duration 3 0).1.mpr rfl,
   (new_panics_iff_zero_duration 3 5).2 (by decide)⟩

/-- C2 counterexample: `new_with_delay` with a zero period does not panic; it
silently produces an interval. -/
theorem new_with_delay_zero_period_no_panic :
    Interval.new_with_delay ⟨0⟩ 0 ≠ none := by
  simp [Interval.new_with_delay]

/-- C2 (amended): `new_with_delay` performs no check on the period at all —
for every delay and every period, zero included, it returns the interval made
of them without panicking; the `period > 0` precondition is enforced only by
the public constructors that call it, such as `new`, which delegates to it
after its own assert. -/
theorem new_with_delay_unchecked (d : Delay) (duration : Duration) (t : Instant) :
    Interval.new_with_delay d duration = some ⟨d, duration⟩ ∧
    (0 < duration →
      Interval.new t duration = Interval.new_with_delay (Delay.new t) duration) :=
  ⟨rfl, fun h => by simp [Interval.new, h]⟩

/-- Instance of `new_with_delay_unchecked` at concrete inputs, the zero
period among them. -/
theorem new_with_delay_unchecked_witness :
    Interval.new_with_delay ⟨2⟩ 0 = some ⟨⟨2⟩, 0⟩ ∧
    Interval.new 2 7 = Interval.new_with_delay (Delay.new 2) 7 :=
  ⟨(new_with_delay_unchecked ⟨2⟩ 0 9).1, (new_with_delay_unchecked ⟨2⟩ 7 2).2 (by decide)⟩

/-- C4: when the owned delay resolves successfully, `poll_next` yields the
delay's armed deadline (not the current wall-clock time) and re-arms the delay
to `deadline + duration`, provided that sum is representable. -/
theorem poll_next_success_yields_deadline (instantMax : Nat) (iv : Interval)
    (h : iv.delay.deadline + iv.duration ≤ instantMax) :
    iv.poll_next instantMax (Poll.ready (Except.ok ())) =
      some (Poll.ready (some (Except.ok iv.delay.deadline)),
            { iv with delay := Delay.reset iv.delay (iv.delay.deadline + iv.duration) }) := by
  simp [Interval.poll_next, instAdd, h, Delay.reset]

/-- Instance of `poll_next_success_yields_deadline` at concrete inputs. -/
theorem poll_next_success_yields_deadline_witness :
    Interval.poll_next 100 ⟨⟨10⟩, 3⟩ (Poll.ready (Except.ok ())) =
      some (Poll.ready (some (Except.ok 10)), ⟨⟨13⟩, 3⟩) :=
  poll_next_success_yields_deadline 100 ⟨⟨10⟩, 3⟩ (by decide)

/-- C5: when the owned delay fails with error `e`, `poll_next` surfaces that
exact error on the same call and leaves the interval's state unchanged: no
reset of the delay, no change of the period. -/
theorem poll_next_error_propagates (instantMax : Nat) (iv : Interval) (e : Error) :
    iv.poll_next instantMax (Poll.ready (Except.error e)) =
      some (Poll.ready (some (Except.error e)), iv) := rfl

/-- C6: `new_interval` is the composition of the clock query with the
two-argument constructor — it equals the spec's `new(now() + period, period)`
for every positive period, and any interval it produces has its first delay
armed for `now + period`, one period after construction. -/
theorem new_interval_eq_new_from_now (instantMax : Nat) (now : Instant)
    (duration : Duration) (h : 0 < duration) :
    Interval.new_interval instantMax now duration =
      specNewFromNow instantMax now duration ∧
    ∀ iv, Interval.new_interval instantMax now duration = some iv →
      iv.delay.deadline = now + duration := by
  constructor
  · unfold Interval.new_interval specNewFromNow
    cases instAdd instantMax now duration <;> rfl
  · intro iv hiv
    rcases hadd : instAdd instantMax now duration with _ | t
    · simp only [Interval.new_interval, hadd] at hiv
      exact absurd hiv (by simp)
    · simp only [Interval.new_interval, hadd] at hiv
      have ht : t = now + duration := by
        unfold instAdd at hadd
        by_cases hle : now + duration ≤ instantMax
        · rw [if_pos hle] at hadd
          exact (Option.some.inj hadd).symm
        · rw [if_neg hle] at hadd
          exact absurd hadd (by simp)
      unfold Interval.new Interval.new_with_delay at hiv
      rw [if_pos h] at hiv
      have hrec := Option.some.inj hiv
      rw [← hrec]
      exact ht

/-- Instance of `new_interval_eq_new_from_now` at concrete inputs. -/
theorem new_interval_eq_new_from_now_witness :
    Interval.new_interval 100 5 10 = specNewFromNow 100 5 10 ∧
    (⟨⟨15⟩, 10⟩ : Interval).delay.deadline = 5 + 10 := by
  have h := new_interval_eq_new_from_now 100 5 10 (by decide)
  exact ⟨h.1, h.2 ⟨⟨15⟩, 10⟩ (by decide)⟩

/-- C7: `poll_next` never signals end-of-stream — whatever the delay's poll
outcome, no returned result is `Ready(None)`; only `Pending`,
`Ready(Some(Ok _))` and `Ready(Some(Err _))` occur. -/
theorem poll_next_never_ends (instantMax : Nat) (iv : Interval)
    (delayPoll : Poll (Except Error Unit))
    (p : Poll (Option (Except Error Instant))) (iv' : Interval)
    (h : iv.poll_next instantMax delayPoll = some (p, iv')) :
    p ≠ Poll.ready none := by
  cases delayPoll with
  | pending =>
    simp [Interval.poll_next] at h
    rw [← h.1]
    simp
  | ready r =>
    cases r with
    | error e =>
      simp [Interval.poll_next] at h
      rw [← h.1]
      simp
    | ok u =>
      simp only [Interval.poll_next] at h
      rcases hadd : instAdd instantMax iv.delay.deadline iv.duration with _ | next
      · rw [hadd] at h
        exact absurd h (by simp)
      · rw [hadd] at h
        simp at h
        rw [← h.1]
        simp

/-- Instance of `poll_next_never_ends` at concrete inputs. -/
theorem poll_next_never_ends_witness :
    (Poll.pending : Poll (Option (Except Error Instant))) ≠ Poll.ready none :=
  poll_next_never_ends 0 ⟨⟨0⟩, 1⟩ Poll.pending Poll.pending ⟨⟨0⟩, 1⟩ rfl

/-- C8: frame condition of `poll_next` — the stored period is never modified,
the state is untouched on `Pending` and on the error path, and on a
successful tick the only change is resetting the owned delay's deadline to
`tick + duration`. -/
theorem poll_next_frame (instantMax : Nat) (iv : Interval)
    (delayPoll : Poll (Except Error Unit))
    (p : Poll (Option (Except Error Instant))) (iv' : Interval)
    (h : iv.poll_next instantMax delayPoll = some (p, iv')) :
    iv'.duration = iv.duration ∧
    (p = Poll.pending → iv' = iv) ∧
    (∀ e, p = Poll.ready (some (Except.error e)) → iv' = iv) ∧
    (∀ t, p = Poll.ready (some (Except.ok t)) →
      iv' = { iv with delay := Delay.reset iv.delay (t + iv.duration) }) := by
  cases delayPoll with
  | pending =>
    simp [Interval.poll_next] at h
    rw [← h.1, ← h.2]
    simp
  | ready r =>
    cases r with
    | error e =>
      simp [Interval.poll_next] at h
      rw [← h.1, ← h.2]
      simp
    | ok u =>
      simp only [Interval.poll_next] at h
      rcases hadd : instAdd instantMax iv.delay.deadline iv.duration with _ | next
      · rw [hadd] at h
        exact absurd h (by simp)
      · rw [hadd] at h
        simp at h
        have hnext : next = iv.delay.deadline + iv.duration := by
          unfold instAdd at hadd
          by_cases hle : iv.delay.deadline + iv.duration ≤ instantMax
          · rw [if_pos hle] at hadd
            exact (Option.some.inj hadd).symm
          · rw [if_neg hle] at hadd
            exact absurd hadd (by simp)
        rw [← h.1, ← h.2]
        refine ⟨rfl, by simp, by simp, ?_⟩
        intro t ht
        simp at ht
        subst ht
        rw [hnext]

/-- Instance of `poll_next_frame` at concrete inputs. -/
theorem poll_next_frame_witness :
    (⟨⟨13⟩, 3⟩ : Interval).duration = (⟨⟨10⟩, 3⟩ : Interval).duration ∧
    (⟨⟨13⟩, 3⟩ : Interval) =
      { (⟨⟨10⟩, 3⟩ : Interval) with delay := Delay.reset ⟨10⟩ (10 + 3) } := by
  have h := poll_next_frame 100 ⟨⟨10⟩, 3⟩ (Poll.ready (Except.ok ()))
      (Poll.ready (some (Except.ok 10))) ⟨⟨13⟩, 3⟩ rfl
  exact ⟨h.1, h.2.2.2 10 rfl⟩

/-- C9: the tick value and the re-armed deadline are independent of the
wall-clock time at which the poll observes completion — two polls of the same
state at different wall-clock times past the deadline produce identical
results and identical successor states. -/
theorem poll_next_wall_clock_independent (instantMax w1 w2 : Nat) (iv : Interval)
    (h1 : iv.delay.deadline ≤ w1) (h2 : iv.delay.deadline ≤ w2) :
    Interval.poll_next_at instantMax w1 none iv =
      Interval.poll_next_at instantMax w2 none iv := by
  unfold Interval.poll_next_at
  simp [Delay.poll, h1, h2]

/-- Instance of `poll_next_wall_clock_independent` at concrete inputs. -/
theorem poll_next_wall_clock_independent_witness :
    Interval.poll_next_at 100 10 none ⟨⟨10⟩, 3⟩ =
      Interval.poll_next_at 100 99 none ⟨⟨10⟩, 3⟩ :=
  poll_next_wall_clock_independent 100 10 99 ⟨⟨10⟩, 3⟩ (by decide) (by decide)

/-- C10: on the success path, `poll_next` panics exactly when
`deadline + duration` exceeds the representable instant range. -/
theorem poll_next_overflow_panics (instantMax : Nat) (iv : Interval) :
    iv.poll_next instantMax (Poll.ready (Except.ok ())) = none ↔
      instantMax < iv.delay.deadline + iv.duration := by
  by_cases h : iv.delay.deadline + iv.duration ≤ instantMax
  · constructor
    · intro hn
      exact absurd hn (by simp [Interval.poll_next, instAdd, h])
    · intro hlt
      exact absurd h (Nat.not_le.mpr hlt)
  · constructor
    · intro _
      exact Nat.not_le.mp h
    · intro _
      simp [Interval.poll_next, instAdd, h]

/-- Auxiliary induction for the drift-free property: starting from a delay
armed for `d0` with period `dur`, polling once per wall-clock time in `ws`
(each at or after the then-armed deadline, all sums representable) yields
exactly `d0, d0 + dur, …`, one period apart. -/
theorem run_ticks_eq (instantMax : Nat) (ws : List Instant) :
    ∀ d0 dur : Nat, 0 < dur → d0 + ws.length * dur ≤ instantMax →
    (∀ k, (hk : k < ws.length) → d0 + k * dur ≤ ws[k]) →
    Interval.run instantMax ⟨⟨d0⟩, dur⟩ ws =
      some ((List.range ws.length).map (fun k => d0 + k * dur)) := by
  induction ws with
  | nil =>
    intro d0 dur _ _ _
    rfl
  | cons w ws ih =>
    intro d0 dur hdur him hws
    have hw0 : d0 ≤ w := by
      have h0 := hws 0 (Nat.succ_pos ws.length)
      simpa using h0
    have hstep : (ws.length + 1) * dur = ws.length * dur + dur := Nat.succ_mul _ _
    have him1 : d0 + (ws.length * dur + dur) ≤ instantMax := by
      have h2 : d0 + (ws.length + 1) * dur ≤ instantMax := by
        simpa [List.length_cons] using him
      rw [hstep] at h2
      exact h2
    have hadd : d0 + dur ≤ instantMax :=
      le_trans (Nat.add_le_add_left (Nat.le_add_left dur (ws.length * dur)) d0) him1
    have hpoll : Interval.poll_next_at instantMax w none ⟨⟨d0⟩, dur⟩ =
        some (Poll.ready (some (Except.ok d0)), ⟨⟨d0 + dur⟩, dur⟩) := by
      simp [Interval.poll_next_at, Delay.poll, hw0, Interval.poll_next, instAdd,
        hadd, Delay.reset]
    have him2 : (d0 + dur) + ws.length * dur ≤ instantMax := by
      calc (d0 + dur) + ws.length * dur = d0 + (ws.length * dur + dur) := by ring
        _ ≤ instantMax := him1
    have hws2 : ∀ k, (hk : k < ws.length) → (d0 + dur) + k * dur ≤ ws[k] := by
      intro k hk
      have hk1 : k + 1 < (w :: ws).length := Nat.succ_lt_succ hk
      have h3 := hws (k + 1) hk1
      have h4 : (w :: ws)[k + 1] = ws[k] := by simp
      rw [h4] at h3
      calc (d0 + dur) + k * dur = d0 + (k + 1) * dur := by ring
        _ ≤ ws[k] := h3
    have hlist : (List.range (ws.length + 1)).map (fun k => d0 + k * dur)
        = d0 :: (List.range ws.length).map (fun k => (d0 + dur) + k * dur) := by
      rw [List.range_succ_eq_map, List.map_cons, List.map_map]
      have hfun : ((fun k => d0 + k * dur) ∘ Nat.succ)
          = fun k => (d0 + dur) + k * dur := by
        funext k
        simp only [Function.comp, Nat.succ_eq_add_one]
        ring
      rw [hfun]
      simp
    simp only [Interval.run, hpoll, List.length_cons, hlist]
    rw [ih (d0 + dur) dur hdur him2 hws2]
    rfl

/-- C1: drift-free ticking — from `Interval::new(first_deadline, period)` with
`period > 0`, `N` consecutive successful `poll_next` calls yield exactly
`first_deadline, first_deadline + period, …, first_deadline + (N-1)*period`,
in order, whatever wall-clock times the consumer polls at (each at or after
the then-armed deadline, all deadlines representable). -/
theorem interval_ticks_drift_free (instantMax first_deadline period N : Nat)
    (ws : List Instant) (iv : Interval)
    (hperiod : 0 < period)
    (hnew : Interval.new first_deadline period = some iv)
    (hlen : ws.length = N)
    (hmax : first_deadline + N * period ≤ instantMax)
    (hlate : ∀ k, (hk : k < ws.length) → first_deadline + k * period ≤ ws[k]) :
    Interval.run instantMax iv ws =
      some ((List.range N).map (fun k => first_deadline + k * period)) := by
  have hiv : iv = ⟨⟨first_deadline⟩, period⟩ := by
    unfold Interval.new Interval.new_with_delay at hnew
    rw [if_pos hperiod] at hnew
    exact (Option.some.inj hnew).symm
  subst hiv
  subst hlen
  exact run_ticks_eq instantMax ws first_deadline period hperiod hmax hlate

/-- Instance of `interval_ticks_drift_free` at concrete inputs: deadlines
5, 15, 25 with period 10, polled at wall-clock times 7, 100, 25. -/
theorem interval_ticks_drift_free_witness :
    Interval.run 1000 ⟨⟨5⟩, 10⟩ [7, 100, 25] = some [5, 15, 25] := by
  have h := interval_ticks_drift_free 1000 5 10 3 [7, 100, 25] ⟨⟨5⟩, 10⟩
      (by decide) rfl rfl (by decide) (by decide)
  exact h.trans (by decide)

end Romio
